import Mathlib

/-
Verification of the worktree indexing core (src/zed/src/worktree.rs).

Paths are modelled as lists of components (Rust Path components), path
order is component-wise lexicographic with byte order on component
characters, matching the Ord instances on Path and PathKey used by the
index.  The sum_tree crate is part of the repository but its source is
not included here; its cursor, slice and edit semantics are modelled
from the specification (section 4.1) on sorted lists of entries.
-/

namespace Worktree

/-- Comparison of characters by character code, matching byte order on
component names. -/
def charCmp (a b : Char) : Ordering :=
  if a.toNat < b.toNat then .lt else if b.toNat < a.toNat then .gt else .eq

/-- Lexicographic comparison of lists from an element comparison.  A
strict prefix compares as less, matching the Ord instance on Rust
slices and path component sequences. -/
def lexCmp (cmp : α → α → Ordering) : List α → List α → Ordering
  | [], [] => .eq
  | [], _ :: _ => .lt
  | _ :: _, [] => .gt
  | a :: as, b :: bs =>
    match cmp a b with
    | .lt => .lt
    | .gt => .gt
    | .eq => lexCmp cmp as bs

/-- Comparison of path components, byte order on the component text. -/
def strCmp (a b : String) : Ordering :=
  lexCmp charCmp a.data b.data

/-- Component-wise lexicographic comparison of paths, the order of the
entry index. -/
def pathCmp (a b : List String) : Ordering :=
  lexCmp strCmp a b

/-- Bool test that path b starts with path a, component-wise, matching
Path starts_with in the source. -/
def startsWith (b a : List String) : Bool :=
  a.isPrefixOf b

theorem charCmp_eq_iff (a b : Char) : charCmp a b = .eq ↔ a = b := by
  unfold charCmp
  split
  case isTrue h =>
    constructor
    · intro hc; exact absurd hc (by simp)
    · rintro rfl; omega
  case isFalse h =>
    split
    case isTrue h2 =>
      constructor
      · intro hc; exact absurd hc (by simp)
      · rintro rfl; omega
    case isFalse h2 =>
      constructor
      · intro _
        have h3 : a.toNat = b.toNat := by omega
        exact Char.eq_of_val_eq (UInt32.ext h3)
      · intro _; rfl

theorem charCmp_swap (a b : Char) : charCmp a b = (charCmp b a).swap := by
  unfold charCmp
  rcases Nat.lt_trichotomy a.toNat b.toNat with h | h | h
  · rw [if_pos h, if_neg (Nat.lt_asymm h), if_pos h]; rfl
  · rw [if_neg (by omega), if_neg (by omega), if_neg (by omega), if_neg (by omega)]; rfl
  · rw [if_neg (Nat.lt_asymm h), if_pos h, if_pos h]; rfl

theorem charCmp_lt_trans {a b c : Char} (h1 : charCmp a b = .lt)
    (h2 : charCmp b c = .lt) : charCmp a c = .lt := by
  unfold charCmp at *
  split at h1
  case isTrue ha =>
    split at h2
    case isTrue hb => rw [if_pos (Nat.lt_trans ha hb)]
    case isFalse hb => split at h2 <;> simp_all
  case isFalse ha => split at h1 <;> simp_all

section LexLemmas

variable {α : Type} (cmp : α → α → Ordering)

theorem lexCmp_eq_iff (hEq : ∀ a b, cmp a b = .eq ↔ a = b) :
    ∀ xs ys, lexCmp cmp xs ys = .eq ↔ xs = ys := by
  intro xs
  induction xs with
  | nil => intro ys; cases ys <;> simp [lexCmp]
  | cons x xs ih =>
    intro ys
    cases ys with
    | nil => simp [lexCmp]
    | cons y ys =>
      simp only [lexCmp]
      cases h : cmp x y with
      | eq =>
        have hx : x = y := (hEq x y).mp h
        simp [ih, hx]
      | lt =>
        have hx : x ≠ y := fun hc => by
          rw [hc] at h; rw [(hEq y y).mpr rfl] at h; exact absurd h (by simp)
        simp [hx]
      | gt =>
        have hx : x ≠ y := fun hc => by
          rw [hc] at h; rw [(hEq y y).mpr rfl] at h; exact absurd h (by simp)
        simp [hx]

theorem lexCmp_swap (hSwap : ∀ a b, cmp a b = (cmp b a).swap) :
    ∀ xs ys, lexCmp cmp xs ys = (lexCmp cmp ys xs).swap := by
  intro xs
  induction xs with
  | nil => intro ys; cases ys <;> simp [lexCmp, Ordering.swap]
  | cons x xs ih =>
    intro ys
    cases ys with
    | nil => simp [lexCmp, Ordering.swap]
    | cons y ys =>
      simp only [lexCmp]
      rw [hSwap x y]
      cases cmp y x with
      | lt => simp [Ordering.swap]
      | gt => simp [Ordering.swap]
      | eq => simpa [Ordering.swap] using ih ys

theorem lexCmp_lt_trans (hEq : ∀ a b, cmp a b = .eq ↔ a = b)
    (hTr : ∀ {a b c}, cmp a b = .lt → cmp b c = .lt → cmp a c = .lt) :
    ∀ {xs ys zs}, lexCmp cmp xs ys = .lt → lexCmp cmp ys zs = .lt →
      lexCmp cmp xs zs = .lt := by
  intro xs
  induction xs with
  | nil =>
    intro ys zs h1 h2
    cases zs with
    | nil =>
      cases ys with
      | nil => exact absurd h1 (by simp [lexCmp])
      | cons y ys => exact absurd h2 (by simp [lexCmp])
    | cons z zs => simp [lexCmp]
  | cons x xs ih =>
    intro ys zs h1 h2
    cases ys with
    | nil => exact absurd h1 (by simp [lexCmp])
    | cons y ys =>
      cases zs with
      | nil => exact absurd h2 (by simp [lexCmp])
      | cons z zs =>
        simp only [lexCmp] at h1 h2 ⊢
        cases hxy : cmp x y with
        | gt => rw [hxy] at h1; exact absurd h1 (by simp)
        | lt =>
          cases hyz : cmp y z with
          | gt => rw [hyz] at h2; exact absurd h2 (by simp)
          | lt => rw [hTr hxy hyz]
          | eq =>
            have : y = z := (hEq y z).mp hyz
            rw [← this, hxy]
        | eq =>
          have hxyEq : x = y := (hEq x y).mp hxy
          cases hyz : cmp y z with
          | gt => rw [hyz] at h2; exact absurd h2 (by simp)
          | lt => rw [hxyEq, hyz]
          | eq =>
            rw [hxy] at h1
            rw [hyz] at h2
            rw [hxyEq, hyz]
            exact ih h1 h2

theorem lexCmp_append_not_gt (hEq : ∀ a b, cmp a b = .eq ↔ a = b) :
    ∀ xs t, lexCmp cmp xs (xs ++ t) ≠ .gt := by
  intro xs
  induction xs with
  | nil => intro t; cases t <;> simp [lexCmp]
  | cons x xs ih =>
    intro t
    simp only [List.cons_append, lexCmp, (hEq x x).mpr rfl]
    exact ih t

theorem lexCmp_extension_lt (hEq : ∀ a b, cmp a b = .eq ↔ a = b) :
    ∀ p h t, lexCmp cmp p h = .lt → (∀ t0, h ≠ p ++ t0) →
      lexCmp cmp (p ++ t) h = .lt := by
  intro p
  induction p with
  | nil =>
    intro h t _ hne
    exact absurd rfl (hne h)
  | cons a as ih =>
    intro h t hlt hne
    cases h with
    | nil => exact absurd hlt (by simp [lexCmp])
    | cons b bs =>
      simp only [lexCmp] at hlt ⊢
      cases hab : cmp a b with
      | lt => rfl
      | gt => rw [hab] at hlt; exact absurd hlt (by simp)
      | eq =>
        rw [hab] at hlt
        have hEqab : a = b := (hEq a b).mp hab
        refine ih bs t hlt ?_
        intro t0 hc
        exact hne t0 (by simp [hc, hEqab])

end LexLemmas

theorem strCmp_eq_iff (a b : String) : strCmp a b = .eq ↔ a = b := by
  unfold strCmp
  rw [lexCmp_eq_iff charCmp charCmp_eq_iff]
  constructor
  · intro h
    cases a; cases b
    simp only at h
    rw [h]
  · rintro rfl; rfl

theorem strCmp_swap (a b : String) : strCmp a b = (strCmp b a).swap :=
  lexCmp_swap charCmp charCmp_swap a.data b.data

theorem strCmp_lt_trans {a b c : String} (h1 : strCmp a b = .lt)
    (h2 : strCmp b c = .lt) : strCmp a c = .lt :=
  lexCmp_lt_trans charCmp charCmp_eq_iff (fun hab hbc => charCmp_lt_trans hab hbc) h1 h2

theorem pathCmp_eq_iff (a b : List String) : pathCmp a b = .eq ↔ a = b :=
  lexCmp_eq_iff strCmp strCmp_eq_iff a b

theorem pathCmp_swap (a b : List String) : pathCmp a b = (pathCmp b a).swap :=
  lexCmp_swap strCmp strCmp_swap a b

theorem pathCmp_lt_trans {a b c : List String} (h1 : pathCmp a b = .lt)
    (h2 : pathCmp b c = .lt) : pathCmp a c = .lt :=
  lexCmp_lt_trans strCmp strCmp_eq_iff (fun hab hbc => strCmp_lt_trans hab hbc) h1 h2

theorem pathCmp_self (a : List String) : pathCmp a a = .eq :=
  (pathCmp_eq_iff a a).mpr rfl

theorem pathCmp_lt_iff_gt (a b : List String) :
    pathCmp a b = .lt ↔ pathCmp b a = .gt := by
  rw [pathCmp_swap a b]
  cases pathCmp b a <;> simp [Ordering.swap]

theorem pathCmp_gt_ne {a b : List String} (h : pathCmp a b = .gt) : a ≠ b := by
  intro hc
  rw [hc, pathCmp_self] at h
  exact absurd h (by simp)

theorem pathCmp_lt_ne {a b : List String} (h : pathCmp a b = .lt) : a ≠ b := by
  intro hc
  rw [hc, pathCmp_self] at h
  exact absurd h (by simp)

theorem startsWith_iff (b a : List String) : startsWith b a = true ↔ a <+: b := by
  unfold startsWith
  exact List.isPrefixOf_iff_prefix

theorem startsWith_self (a : List String) : startsWith a a = true :=
  (startsWith_iff a a).mpr List.prefix_rfl

theorem startsWith_not_gt {a b : List String} (h : startsWith b a = true) :
    pathCmp a b ≠ .gt := by
  obtain ⟨t, rfl⟩ := (startsWith_iff b a).mp h
  exact lexCmp_append_not_gt strCmp strCmp_eq_iff a t

/-- A path that starts with prefix a is not below a in path order. -/
theorem startsWith_not_lt {a b : List String} (h : startsWith b a = true) :
    pathCmp b a ≠ .lt := by
  intro hc
  exact startsWith_not_gt h ((pathCmp_lt_iff_gt b a).mp hc)

/-- Every extension of p stays strictly below a path h that is above p
and does not start with p. -/
theorem extension_lt {p h : List String} (hlt : pathCmp p h = .lt)
    (hsw : startsWith h p = false) {x : List String}
    (hx : startsWith x p = true) : pathCmp x h = .lt := by
  obtain ⟨t, rfl⟩ := (startsWith_iff x p).mp hx
  refine lexCmp_extension_lt strCmp strCmp_eq_iff p h t hlt ?_
  intro t0 hc
  rw [hc] at hsw
  rw [(startsWith_iff (p ++ t0) p).mpr ⟨t0, rfl⟩] at hsw
  exact absurd hsw (by simp)

theorem pathCmp_eq_of_eq {a b : List String} (h : a = b) : pathCmp a b = .eq :=
  (pathCmp_eq_iff a b).mpr h

/-- Kind of an index entry, from enum EntryKind in the source.  A file
carries its char bag (modelled as the list of fingerprint characters). -/
inductive EntryKind where
  | pendingDir : EntryKind
  | dir : EntryKind
  | file (charBag : List Char) : EntryKind
deriving DecidableEq

/-- Per-path record of the index, from struct Entry in the source. -/
structure Entry where
  kind : EntryKind
  path : List String
  inode : Nat
  isSymlink : Bool
  isIgnored : Option Bool
deriving DecidableEq

/-- Test from Entry is_dir in the source: true for Dir and PendingDir. -/
def Entry.isDir (e : Entry) : Bool :=
  match e.kind with
  | .file _ => false
  | _ => true

/-- Bool test that a kind is the File kind. -/
def isFileKind (k : EntryKind) : Bool :=
  match k with
  | .file _ => true
  | _ => false

/-- Monoidal aggregate of the index, from struct EntrySummary. -/
structure EntrySummary where
  maxPath : List String
  fileCount : Nat
  visibleFileCount : Nat
  recomputeIgnoreStatus : Bool
deriving DecidableEq

/-- Per-entry summary, from impl sum_tree Item for Entry in the source:
files count 1, the visible count is 0 exactly when is_ignored
unwrap_or(false) holds, and recompute_ignore_status marks a pending
classification. -/
def Entry.summary (e : Entry) : EntrySummary :=
  if isFileKind e.kind then
    { maxPath := e.path
      fileCount := 1
      visibleFileCount := if e.isIgnored.getD false then 0 else 1
      recomputeIgnoreStatus := e.isIgnored.isNone }
  else
    { maxPath := e.path
      fileCount := 0
      visibleFileCount := 0
      recomputeIgnoreStatus := e.isIgnored.isNone }

/-- Summary combination, from impl AddAssign for EntrySummary: max_path
is replaced by the right operand, counts add, the recompute flag ors. -/
def combineSummary (a b : EntrySummary) : EntrySummary :=
  { maxPath := b.maxPath
    fileCount := a.fileCount + b.fileCount
    visibleFileCount := a.visibleFileCount + b.visibleFileCount
    recomputeIgnoreStatus := a.recomputeIgnoreStatus || b.recomputeIgnoreStatus }

/-- Identity summary, from impl Default for EntrySummary. -/
def defaultSummary : EntrySummary :=
  { maxPath := []
    fileCount := 0
    visibleFileCount := 0
    recomputeIgnoreStatus := false }

/-- Modelled from the spec: the root summary of the sum tree (whose
source is not included) is the monoidal fold of the item summaries. -/
def summaryOfList (es : List Entry) : EntrySummary :=
  es.foldl (fun acc e => combineSummary acc e.summary) defaultSummary

/-- Three-valued gitignore match result, from the external ignore crate. -/
inductive IgnMatch where
  | whitelist : IgnMatch
  | ignoreMatch : IgnMatch
  | noMatch : IgnMatch
deriving DecidableEq

/-- Parsed gitignore rules, modelled abstractly as the match function the
external ignore crate provides: relative path and is_dir flag to match
result. -/
def IgnoreRules : Type := List String → Bool → IgnMatch

/-- The snapshot state, from struct Snapshot: scan id, absolute root
path, root name chars, the ignore map from directory path to parsed
rules and the scan id at which they were observed, and the entry index
(modelled as a path-sorted list standing for the sum tree). -/
structure Snapshot where
  id : Nat
  scanId : Nat
  absPath : List String
  rootNameChars : List Char
  ignores : List (List String × IgnoreRules × Nat)
  entries : List Entry

/-- Sortedness invariant of the entry index: strictly increasing paths. -/
abbrev sortedEntries (es : List Entry) : Prop :=
  es.Pairwise (fun a b => pathCmp a.path b.path = .lt)

/-- Seek query over the path dimension, from enum PathSearch. -/
inductive PathSearch where
  | exact (p : List String) : PathSearch
  | successor (p : List String) : PathSearch

/-- The implemented branch of the PathSearch Ord instance comparing
Successor(a) with Exact(b): Greater when b starts with a, otherwise the
path comparison of a and b. -/
def succCmpExact (a b : List String) : Ordering :=
  if startsWith b a then .gt else pathCmp a b

/-- Ord instance of PathSearch from the source, with the two
unimplemented combinations (left Exact against right Successor, and
Successor against Successor) returning none to model the todo branch. -/
def psCmpOpt : PathSearch → PathSearch → Option Ordering
  | .exact a, .exact b => some (pathCmp a b)
  | .successor a, .exact b => some (succCmpExact a b)
  | _, _ => none

/-- Lookup in the ignore map by directory path. -/
def ignoresFind (m : List (List String × IgnoreRules × Nat)) (d : List String) :
    Option (IgnoreRules × Nat) :=
  (m.find? (fun kv => kv.1 == d)).map (fun kv => kv.2)

/-- Insertion into the ignore map, replacing an existing key. -/
def ignoresInsert (m : List (List String × IgnoreRules × Nat)) (k : List String)
    (v : IgnoreRules × Nat) : List (List String × IgnoreRules × Nat) :=
  match m with
  | [] => [(k, v)]
  | kv :: t => if kv.1 = k then (k, v) :: t else kv :: ignoresInsert t k v

/-- In-place update of the scan id stored for key k, from the get_mut
branch of remove_path. -/
def ignoresBump (m : List (List String × IgnoreRules × Nat)) (k : List String)
    (sid : Nat) : List (List String × IgnoreRules × Nat) :=
  m.map (fun kv => if kv.1 = k then (kv.1, kv.2.1, sid) else kv)

/-- Point lookup by key, from SumTree get as used by populate_dir. -/
def entriesGet (es : List Entry) (q : List String) : Option Entry :=
  es.find? (fun e => e.path == q)

/-- Modelled from the spec: entry_for_path seeks Exact(p) with Left bias
on the sum tree cursor (source not included) and returns the item there
when its key equals p.  On the sorted list this is the first entry not
below p, kept only when its path is exactly p. -/
def entryForPath (s : Snapshot) (p : List String) : Option Entry :=
  match s.entries.find? (fun e => !(pathCmp e.path p == .lt)) with
  | some e => if e.path = p then some e else none
  | none => none

/-- The final component of a path, from Path file_name. -/
def fileName (p : List String) : Option String :=
  p.getLast?

/-- The parent of a path, from Path parent: none for the root path. -/
def parentPath (p : List String) : Option (List String) :=
  match p with
  | [] => none
  | _ :: _ => some p.dropLast

/-- Name of ignore files, from the GITIGNORE constant. -/
def gitignoreName : String := ".gitignore"

/-- Modelled from the spec: a single keyed insert into the sum tree
(source not included), replacing an existing entry with the same key
and keeping the list sorted by path. -/
def insertSorted (es : List Entry) (e : Entry) : List Entry :=
  match es with
  | [] => [e]
  | h :: t =>
    match pathCmp e.path h.path with
    | .lt => e :: h :: t
    | .eq => e :: t
    | .gt => h :: insertSorted t e

/-- Modelled from the spec: bulk edit of the sum tree, Insert edits
replace existing keys. -/
def editEntries (es : List Entry) (edits : List Entry) : List Entry :=
  edits.foldl insertSorted es

/-- Paths of the environment and results of the filesystem calls the
scanner makes, passed in as an oracle: the stat results, the parsed
contents of gitignore files, the canonicalized root, and the scanner
root char bag. -/
structure FsMeta where
  isDir : Bool
  inode : Nat
  isSymlink : Bool

/-- Error kinds of std io, restricted to the ones the source inspects. -/
inductive IoKind where
  | notFound : IoKind
  | otherKind : IoKind
  | permissionDenied : IoKind
deriving DecidableEq

/-- Io error model: kind plus the raw os error number when present. -/
structure IoError where
  kind : IoKind
  rawOs : Option Int
deriving DecidableEq

structure ScannerEnv where
  meta : List String → Except IoError FsMeta
  symlinkMeta : List String → Except IoError FsMeta
  parseIgnore : List String → IgnoreRules
  canonical : Option (List String)
  rootCharBag : List Char

/-- Characters of the relative path as displayed, used for char bags. -/
def pathChars (p : List String) : List Char :=
  (String.intercalate "/" p).data

/-- From Snapshot insert_ignore_file: parse the file at the joined
absolute path and record the rules under the parent directory with the
current scan id. -/
def insertIgnoreFile (env : ScannerEnv) (s : Snapshot) (p : List String) : Snapshot :=
  { s with
    ignores :=
      ignoresInsert s.ignores p.dropLast (env.parseIgnore (s.absPath ++ p), s.scanId) }

/-- The guard of insert_entry and populate_dir: a non-directory entry
whose file name is .gitignore. -/
def ignoreChild (c : Entry) : Bool :=
  !c.isDir && (fileName c.path == some gitignoreName)

/-- From Snapshot insert_entry: a non-directory named .gitignore is
registered in the ignore map, then the entry is inserted. -/
def insertEntry (env : ScannerEnv) (s : Snapshot) (e : Entry) : Snapshot :=
  let s1 := if ignoreChild e then insertIgnoreFile env s e.path else s
  { s1 with entries := insertSorted s1.entries e }

/-- The loop of populate_dir registering every gitignore child. -/
def registerIgnores (env : ScannerEnv) (s : Snapshot) (children : List Entry) : Snapshot :=
  children.foldl (fun acc c => if ignoreChild c then insertIgnoreFile env acc c.path else acc) s

/-- From Snapshot populate_dir: the parent entry must exist and be
PendingDir (anything else is the unreachable branch, modelled as none);
it becomes Dir, gitignore children are registered, and the parent edit
plus all child edits are applied. -/
def populateDir (env : ScannerEnv) (s : Snapshot) (parent : List String)
    (children : List Entry) : Option Snapshot :=
  match entriesGet s.entries parent with
  | none => none
  | some pe =>
    match pe.kind with
    | .pendingDir =>
      let pe2 : Entry := { pe with kind := .dir }
      let s1 := registerIgnores env s children
      some { s1 with entries := editEntries s1.entries (pe2 :: children) }
    | _ => none

/-- From Snapshot remove_path: slice the tree strictly below Exact(p)
with Left bias, seek forward past Successor(p) with Left bias, splice
prefix and suffix (modelled from the spec on the sorted list), and when
p names a .gitignore bump the scan id stored for its parent directory. -/
def removeEntries (es : List Entry) (p : List String) : List Entry :=
  es.takeWhile (fun e => pathCmp p e.path == .gt) ++
    es.dropWhile (fun e => succCmpExact p e.path == .gt)

def removePath (s : Snapshot) (p : List String) : Snapshot :=
  { s with
    entries := removeEntries s.entries p
    ignores :=
      if fileName p == some gitignoreName then
        ignoresBump s.ignores p.dropLast s.scanId
      else s.ignores }

/-- From Snapshot is_path_ignored: the while let loop over parents;
entry is replaced by the parent entry at the end of each round, so the
is_dir flag handed to the rules is that of the previous round.  Fuel
bounds the rounds; path length plus one is always enough since every
round shortens the current path by one component. -/
def ignoreWalk (s : Snapshot) (p : List String) : Entry → Nat → Bool
  | _, 0 => false
  | entry, Nat.succ fuel =>
    match parentPath entry.path with
    | none => false
    | some pp =>
      match entryForPath s pp with
      | none => false
      | some parentEntry =>
        match ignoresFind s.ignores parentEntry.path with
        | some rp =>
          match rp.1 (p.drop parentEntry.path.length) entry.isDir with
          | .whitelist => false
          | .ignoreMatch => true
          | .noMatch => ignoreWalk s p parentEntry fuel
        | none => ignoreWalk s p parentEntry fuel

/-- From Snapshot is_path_ignored: error when the path has no entry,
true for paths starting with the .git component, otherwise the parent
walk. -/
def isPathIgnored (s : Snapshot) (p : List String) : Except String Bool :=
  match entryForPath s p with
  | none => .error "entry does not exist in worktree"
  | some entry =>
    if startsWith p [".git"] then .ok true
    else .ok (ignoreWalk s p entry (p.length + 1))

/-- Helper for ancestorChain: the prefixes of p of lengths n-1 down to
0. -/
def ancestorChainAux (p : List String) : Nat → List (List String)
  | 0 => []
  | Nat.succ n => p.take n :: ancestorChainAux p n

/-- Proper ancestors of a path, nearest first, ending with the root. -/
def ancestorChain (p : List String) : List (List String) :=
  ancestorChainAux p p.length

/-- Declarative ancestor walk: consult each ancestor in turn with the
given flag for the first consulted ancestor and true afterwards.  Used
to state what the loop in is_path_ignored computes. -/
def walkSpec (s : Snapshot) (p : List String) : List (List String) → Bool → Bool
  | [], _ => false
  | d :: rest, flag =>
    match ignoresFind s.ignores d with
    | some rp =>
      match rp.1 (p.drop d.length) flag with
      | .whitelist => false
      | .ignoreMatch => true
      | .noMatch => walkSpec s p rest true
    | none => walkSpec s p rest true

/-- Modelled from the spec sentence of claim C4: the ancestor walk as
the claim states it, with the is_dir flag of the subject entry used at
every ancestor. -/
def claimWalk (s : Snapshot) (p : List String) (flag : Bool) :
    List (List String) → Bool
  | [] => false
  | d :: rest =>
    match ignoresFind s.ignores d with
    | some rp =>
      match rp.1 (p.drop d.length) flag with
      | .whitelist => false
      | .ignoreMatch => true
      | .noMatch => claimWalk s p flag rest
    | none => claimWalk s p flag rest

/-- Modelled from the spec sentence of claim C4: is_path_ignored as
claimed, walking all ancestors with the subject is_dir flag. -/
def claimIsPathIgnored (s : Snapshot) (p : List String) : Except String Bool :=
  match entryForPath s p with
  | none => .error "entry does not exist in worktree"
  | some entry =>
    if startsWith p [".git"] then .ok true
    else .ok (claimWalk s p entry.isDir (ancestorChain p))

/-- From Snapshot root_entry: entry_for_path of the empty path, whose
unwrap in the source is modelled by the none result. -/
def rootEntry (s : Snapshot) : Option Entry :=
  entryForPath s []

/-- ENOTDIR raw os error number inspected by fs_entry_for_path. -/
def enotdir : Int := 20

/-- From BackgroundScanner fs_entry_for_path: a NotFound stat, or an
Other stat carrying ENOTDIR, yields Ok(None); any other stat failure is
an error; otherwise the entry is built with PendingDir kind for
directories and File kind with the char bag for everything else. -/
def fsEntryForPath (env : ScannerEnv) (path absPath : List String) :
    Except IoError (Option Entry) :=
  match env.meta absPath with
  | .error err =>
    if err.kind = .notFound then .ok none
    else if err.kind = .otherKind ∧ err.rawOs = some enotdir then .ok none
    else .error err
  | .ok m =>
    match env.symlinkMeta absPath with
    | .error err => .error err
    | .ok sm =>
      .ok (some
        { kind := if m.isDir then .pendingDir else .file (env.rootCharBag ++ pathChars path)
          path := path
          inode := m.inode
          isSymlink := sm.isSymlink
          isIgnored := none })

/-- Insertion sort step for event paths, modelling sort_unstable_by on
the absolute paths of an event batch. -/
def insertPathSorted (p : List String) : List (List String) → List (List String)
  | [] => [p]
  | q :: t => if pathCmp p q = .gt then q :: insertPathSorted p t else p :: q :: t

def sortPaths (l : List (List String)) : List (List String) :=
  l.foldr insertPathSorted []

/-- Helper for coalesce with explicit fuel, enough fuel being the batch
length since every round consumes at least the head. -/
def coalesceAux : Nat → List (List String) → List (List String)
  | 0, _ => []
  | _, [] => []
  | Nat.succ n, a :: rest => a :: coalesceAux n (rest.dropWhile (fun p => startsWith p a))

/-- From process_events: the one-element lookahead that drops every
event whose path is a strict descendant of the current one. -/
def coalesce (l : List (List String)) : List (List String) :=
  coalesceAux l.length l

/-- From the per-event body of process_events: skip events outside the
canonical root, remove the relative path, re-stat, and insert the fresh
entry when the stat produced one (stat errors are logged and leave the
subtree removed). -/
def processOneEvent (env : ScannerEnv) (root : List String) (acc : Snapshot)
    (absPath : List String) : Snapshot :=
  if startsWith absPath root then
    let rel := absPath.drop root.length
    let acc1 := removePath acc rel
    match fsEntryForPath env rel absPath with
    | .ok (some e) => insertEntry env acc1 e
    | .ok none => acc1
    | .error _ => acc1
  else acc

/-- From BackgroundScanner process_events: abort when the root cannot
be canonicalized; otherwise clone, bump the scan id, sort and coalesce
the batch, process each retained event, and commit the result. -/
def processEvents (env : ScannerEnv) (s : Snapshot) (events : List (List String)) :
    Option Snapshot :=
  match env.canonical with
  | none => none
  | some root =>
    some ((coalesce (sortPaths events)).foldl (processOneEvent env root)
      { s with scanId := s.scanId + 1 })

/-- From BackgroundScanner scan_dirs up to the root insertion: bump the
scan id first, then stat the root; a stat failure is returned after the
bump, otherwise the root entry is inserted as PendingDir or File.  The
subsequent pool scanning and ignore recomputation are further scanner
steps. -/
def scanDirsBody (env : ScannerEnv) (s1 : Snapshot) : Snapshot × Option IoError :=
  match env.meta s1.absPath with
  | .error e => (s1, some e)
  | .ok m =>
    match env.symlinkMeta s1.absPath with
    | .error e => (s1, some e)
    | .ok sm =>
      if m.isDir then
        (insertEntry env s1
          { kind := .pendingDir, path := [], inode := m.inode
            isSymlink := sm.isSymlink, isIgnored := none }, none)
      else
        (insertEntry env s1
          { kind := .file (env.rootCharBag ++ pathChars []), path := []
            inode := m.inode, isSymlink := sm.isSymlink, isIgnored := none }, none)

def scanDirs (env : ScannerEnv) (s : Snapshot) : Snapshot × Option IoError :=
  scanDirsBody env { s with scanId := s.scanId + 1 }

/-- The mutations the background scanner performs on the shared
snapshot: the scan id bump of scan_dirs, single entry insertion, dir
population, path removal, edit batches applied by the ignore status
appliers, garbage collection of dead ignore map keys, and the commit of
a processed event batch. -/
inductive ScannerStep (env : ScannerEnv) : Snapshot → Snapshot → Prop where
  | bump (s : Snapshot) : ScannerStep env s { s with scanId := s.scanId + 1 }
  | insert (s : Snapshot) (e : Entry) : ScannerStep env s (insertEntry env s e)
  | populate (s : Snapshot) (parent : List String) (children : List Entry)
      (s2 : Snapshot) : populateDir env s parent children = some s2 →
      ScannerStep env s s2
  | remove (s : Snapshot) (p : List String) : ScannerStep env s (removePath s p)
  | applyEdits (s : Snapshot) (edits : List Entry) :
      ScannerStep env s { s with entries := editEntries s.entries edits }
  | gcIgnore (s : Snapshot) (k : List String) :
      ScannerStep env s { s with ignores := s.ignores.filter (fun kv => !(kv.1 == k)) }
  | commit (s : Snapshot) (events : List (List String)) (s2 : Snapshot) :
      processEvents env s events = some s2 → ScannerStep env s s2

/-- takeWhile under a partial predicate: none as soon as one test is
undefined.  Models cursor stepping that compares through the partial
PathSearch Ord instance. -/
def takeWhileOpt (f : α → Option Bool) : List α → Option (List α)
  | [] => some []
  | a :: t =>
    match f a with
    | none => none
    | some true => (takeWhileOpt f t).map (fun r => a :: r)
    | some false => some []

/-- dropWhile under a partial predicate, as takeWhileOpt. -/
def dropWhileOpt (f : α → Option Bool) : List α → Option (List α)
  | [] => some []
  | a :: t =>
    match f a with
    | none => none
    | some true => dropWhileOpt f t
    | some false => some (a :: t)

/-- One cursor comparison during a seek: the target is compared against
the Exact position accumulated by the PathSearch dimension; the result
tells whether the cursor keeps advancing, and is none when the Ord
instance hits its unimplemented branch. -/
def cmpStepOpt (target : PathSearch) (e : Entry) : Option Bool :=
  (psCmpOpt target (.exact e.path)).map (fun o => o == .gt)

/-- remove_path with every cursor comparison routed through the partial
Ord instance: none would mean the todo branch was reached. -/
def removeEntriesChecked (es : List Entry) (p : List String) : Option (List Entry) :=
  match takeWhileOpt (cmpStepOpt (.exact p)) es with
  | none => none
  | some pre =>
    match dropWhileOpt (cmpStepOpt (.successor p)) es with
    | none => none
    | some suf => some (pre ++ suf)

/-- The seek with Right bias issued on each changed ignore parent by
compute_ignore_status_for_new_ignores, with every comparison routed
through the partial Ord instance: the cursor advances while the Exact
target is not below the position. -/
def seekRightChecked (t : List String) (es : List Entry) : Option (List Entry) :=
  dropWhileOpt (fun e => (psCmpOpt (.exact t) (.exact e.path)).map (fun o => !(o == .lt))) es

theorem mem_insertSorted_self (es : List Entry) (e : Entry) :
    e ∈ insertSorted es e := by
  induction es with
  | nil => simp [insertSorted]
  | cons h t ih =>
    simp only [insertSorted]
    cases pathCmp e.path h.path <;> simp [ih]

theorem mem_insertSorted_of_ne {es : List Entry} {x e : Entry}
    (hmem : x ∈ es) (hne : x.path ≠ e.path) : x ∈ insertSorted es e := by
  induction es with
  | nil => exact absurd hmem (by simp)
  | cons h t ih =>
    simp only [insertSorted]
    cases hc : pathCmp e.path h.path with
    | lt => exact List.mem_cons_of_mem e hmem
    | eq =>
      have hph : e.path = h.path := (pathCmp_eq_iff e.path h.path).mp hc
      rcases List.mem_cons.mp hmem with rfl | hmt
      · exact absurd hph.symm hne
      · exact List.mem_cons_of_mem e hmt
    | gt =>
      rcases List.mem_cons.mp hmem with rfl | hmt
      · exact List.mem_cons_self x (insertSorted t e)
      · exact List.mem_cons_of_mem h (ih hmt)

theorem entriesGet_insertSorted_self (es : List Entry) (e : Entry) :
    entriesGet (insertSorted es e) e.path = some e := by
  induction es with
  | nil => simp [insertSorted, entriesGet]
  | cons h t ih =>
    simp only [insertSorted]
    cases hc : pathCmp e.path h.path with
    | lt => simp [entriesGet]
    | eq => simp [entriesGet]
    | gt =>
      have hne : e.path ≠ h.path := pathCmp_gt_ne hc
      simp only [entriesGet, List.find?]
      rw [show (h.path == e.path) = false by
        simp only [beq_eq_false_iff_ne]; exact fun hcc => hne hcc.symm]
      exact ih

theorem entriesGet_insertSorted_other (es : List Entry) (e : Entry)
    {q : List String} (hq : q ≠ e.path) :
    entriesGet (insertSorted es e) q = entriesGet es q := by
  induction es with
  | nil =>
    simp only [insertSorted, entriesGet, List.find?]
    rw [show (e.path == q) = false by
      simp only [beq_eq_false_iff_ne]; exact fun hcc => hq hcc.symm]
  | cons h t ih =>
    simp only [insertSorted]
    cases hc : pathCmp e.path h.path with
    | lt =>
      simp only [entriesGet, List.find?]
      rw [show (e.path == q) = false by
        simp only [beq_eq_false_iff_ne]; exact fun hcc => hq hcc.symm]
    | eq =>
      have hph : e.path = h.path := (pathCmp_eq_iff e.path h.path).mp hc
      simp only [entriesGet, List.find?]
      rw [show (e.path == q) = false by
        simp only [beq_eq_false_iff_ne]; exact fun hcc => hq hcc.symm]
      rw [show (h.path == q) = false by
        simp only [beq_eq_false_iff_ne]
        exact fun hcc => hq (by rw [← hcc, hph])]
    | gt =>
      simp only [entriesGet, List.find?] at ih ⊢
      cases hb : h.path == q with
      | true => rfl
      | false => exact ih

theorem editEntries_get_of_absent {edits : List Entry} {q : List String}
    (h : ∀ d ∈ edits, d.path ≠ q) :
    ∀ es, entriesGet (editEntries es edits) q = entriesGet es q := by
  induction edits with
  | nil => intro es; rfl
  | cons d rest ih =>
    intro es
    simp only [editEntries, List.foldl_cons] at *
    rw [ih (fun x hx => h x (List.mem_cons_of_mem d hx))]
    exact entriesGet_insertSorted_other es d
      (fun hc => h d (List.mem_cons_self d rest) hc.symm)

theorem editEntries_mem_pres {edits : List Entry} {x : Entry}
    (h : ∀ d ∈ edits, d.path ≠ x.path) :
    ∀ es, x ∈ es → x ∈ editEntries es edits := by
  induction edits with
  | nil => intro es hx; exact hx
  | cons d rest ih =>
    intro es hx
    simp only [editEntries, List.foldl_cons] at *
    exact ih (fun y hy => h y (List.mem_cons_of_mem d hy))
      (insertSorted es d) (mem_insertSorted_of_ne hx
        (fun hc => h d (List.mem_cons_self d rest) hc.symm))

theorem editEntries_mem_self {edits : List Entry} {c : Entry} (hc : c ∈ edits)
    (hdist : edits.Pairwise (fun a b => a.path ≠ b.path)) :
    ∀ es, c ∈ editEntries es edits := by
  induction edits with
  | nil => exact absurd hc (by simp)
  | cons d rest ih =>
    intro es
    rcases List.pairwise_cons.mp hdist with ⟨hd, hrest⟩
    simp only [editEntries, List.foldl_cons]
    rcases List.mem_cons.mp hc with rfl | hcr
    · exact editEntries_mem_pres (fun y hy => (hd y hy).symm) (insertSorted es c)
        (mem_insertSorted_self es c)
    · exact ih hcr hrest (insertSorted es d)

theorem ignoresFind_cons_ne (kv : List String × IgnoreRules × Nat)
    (t : List (List String × IgnoreRules × Nat)) {q : List String}
    (h : kv.1 ≠ q) : ignoresFind (kv :: t) q = ignoresFind t q := by
  simp only [ignoresFind, List.find?, beq_eq_false_iff_ne.mpr h]

theorem ignoresFind_cons_eq (kv : List String × IgnoreRules × Nat)
    (t : List (List String × IgnoreRules × Nat)) {q : List String}
    (h : kv.1 = q) : ignoresFind (kv :: t) q = some kv.2 := by
  simp only [ignoresFind, List.find?, beq_iff_eq.mpr h]
  rfl

theorem ignoresFind_insert_self (m : List (List String × IgnoreRules × Nat))
    (k : List String) (v : IgnoreRules × Nat) :
    ignoresFind (ignoresInsert m k v) k = some v := by
  induction m with
  | nil => exact ignoresFind_cons_eq (k, v) [] rfl
  | cons kv t ih =>
    simp only [ignoresInsert]
    split
    case isTrue h => exact ignoresFind_cons_eq (k, v) t rfl
    case isFalse h =>
      rw [ignoresFind_cons_ne kv (ignoresInsert t k v) h]
      exact ih

theorem ignoresFind_insert_other (m : List (List String × IgnoreRules × Nat))
    (k : List String) (v : IgnoreRules × Nat) {q : List String} (hq : q ≠ k) :
    ignoresFind (ignoresInsert m k v) q = ignoresFind m q := by
  induction m with
  | nil =>
    rw [show ignoresInsert [] k v = [(k, v)] from rfl]
    rw [ignoresFind_cons_ne (k, v) [] (fun hc => hq hc.symm)]
  | cons kv t ih =>
    simp only [ignoresInsert]
    split
    case isTrue h =>
      rw [ignoresFind_cons_ne (k, v) t (fun hc => hq hc.symm)]
      rw [ignoresFind_cons_ne kv t (fun hc => hq (h ▸ hc).symm)]
    case isFalse h =>
      by_cases hb : kv.1 = q
      · rw [ignoresFind_cons_eq kv (ignoresInsert t k v) hb,
          ignoresFind_cons_eq kv t hb]
      · rw [ignoresFind_cons_ne kv (ignoresInsert t k v) hb,
          ignoresFind_cons_ne kv t hb]
        exact ih

theorem ignoresFind_bump_self (m : List (List String × IgnoreRules × Nat))
    (k : List String) (sid : Nat) {r : IgnoreRules} {old : Nat}
    (h : ignoresFind m k = some (r, old)) :
    ignoresFind (ignoresBump m k sid) k = some (r, sid) := by
  induction m with
  | nil => simp [ignoresFind] at h
  | cons kv t ih =>
    have hstep : ignoresBump (kv :: t) k sid =
        (if kv.1 = k then (kv.1, kv.2.1, sid) else kv) :: ignoresBump t k sid := rfl
    rw [hstep]
    by_cases hb : kv.1 = k
    · rw [ignoresFind_cons_eq kv t hb] at h
      rw [if_pos hb]
      rw [ignoresFind_cons_eq (kv.1, kv.2.1, sid) (ignoresBump t k sid) hb]
      have hr : kv.2.1 = r := by
        have := congrArg (fun o => Option.map Prod.fst o) h
        simpa using this
      rw [hr]
    · rw [ignoresFind_cons_ne kv t hb] at h
      rw [if_neg hb]
      rw [ignoresFind_cons_ne kv (ignoresBump t k sid) hb]
      exact ih h

theorem pathCmp_le_lt_trans {a b c : List String} (h1 : pathCmp a b ≠ .gt)
    (h2 : pathCmp b c = .lt) : pathCmp a c = .lt := by
  cases hab : pathCmp a b with
  | lt => exact pathCmp_lt_trans hab h2
  | eq => rw [(pathCmp_eq_iff a b).mp hab]; exact h2
  | gt => exact absurd hab h1

theorem beq_gt_iff {o : Ordering} : ((o == Ordering.gt) = true) ↔ o = .gt := by
  cases o <;> decide

theorem beq_gt_false {o : Ordering} (h : o ≠ .gt) : ¬((o == Ordering.gt) = true) :=
  fun hc => h (beq_gt_iff.mp hc)

theorem succCmpExact_of_sw {p q : List String} (h : startsWith q p = true) :
    succCmpExact p q = .gt := by
  simp [succCmpExact, h]

theorem succCmpExact_of_not_sw {p q : List String} (h : startsWith q p = false) :
    succCmpExact p q = pathCmp p q := by
  simp [succCmpExact, h]

/-- On a sorted index the slice plus seek splice of remove_path keeps
exactly the entries whose path does not start with p, in order and
unchanged. -/
theorem removeEntries_eq_filter {es : List Entry} (p : List String)
    (hs : sortedEntries es) :
    removeEntries es p = es.filter (fun e => !(startsWith e.path p)) := by
  induction es with
  | nil => rfl
  | cons e t ih =>
    rcases List.pairwise_cons.mp hs with ⟨hrel, ht⟩
    have ihr := ih ht
    simp only [removeEntries] at ihr ⊢
    by_cases hswe : startsWith e.path p = true
    · have hng : pathCmp p e.path ≠ .gt := startsWith_not_gt hswe
      rw [List.takeWhile_cons, List.dropWhile_cons]
      rw [if_neg (beq_gt_false hng)]
      rw [if_pos (beq_gt_iff.mpr (succCmpExact_of_sw hswe))]
      rw [List.filter_cons_of_neg (by simp [hswe])]
      have htw : t.takeWhile (fun e => pathCmp p e.path == .gt) = [] := by
        cases t with
        | nil => rfl
        | cons x t2 =>
          rw [List.takeWhile_cons]
          rw [if_neg (beq_gt_false (by
            rw [pathCmp_le_lt_trans hng (hrel x (List.mem_cons_self x t2))]
            simp))]
      rw [htw, List.nil_append] at ihr
      rw [List.nil_append]
      exact ihr
    · have hswf : startsWith e.path p = false := by
        cases hx : startsWith e.path p with
        | true => exact absurd hx hswe
        | false => rfl
      cases hcmp : pathCmp p e.path with
      | gt =>
        rw [List.takeWhile_cons, List.dropWhile_cons]
        rw [if_pos (beq_gt_iff.mpr hcmp)]
        rw [if_pos (beq_gt_iff.mpr (by rw [succCmpExact_of_not_sw hswf]; exact hcmp))]
        rw [List.filter_cons_of_pos (by simp [hswf])]
        rw [List.cons_append]
        rw [ihr]
      | eq =>
        have hpe : p = e.path := (pathCmp_eq_iff p e.path).mp hcmp
        rw [← hpe, startsWith_self p] at hswf
        exact absurd hswf (by simp)
      | lt =>
        rw [List.takeWhile_cons, List.dropWhile_cons]
        rw [if_neg (beq_gt_false (by rw [hcmp]; simp))]
        rw [if_neg (beq_gt_false (by rw [succCmpExact_of_not_sw hswf, hcmp]; simp))]
        rw [List.filter_cons_of_pos (by simp [hswf])]
        have hft : t.filter (fun e => !(startsWith e.path p)) = t := by
          apply List.filter_eq_self.mpr
          intro x hx
          cases hsx : startsWith x.path p with
          | false => simp
          | true =>
            have h1 : pathCmp x.path e.path = .lt := extension_lt hcmp hswf hsx
            have h2 : pathCmp x.path e.path = .gt :=
              (pathCmp_lt_iff_gt e.path x.path).mp (hrel x hx)
            rw [h1] at h2
            exact absurd h2 (by simp)
        rw [hft, List.nil_append]

theorem insertIgnoreFile_scanId (env : ScannerEnv) (s : Snapshot) (p : List String) :
    (insertIgnoreFile env s p).scanId = s.scanId := rfl

theorem insertIgnoreFile_absPath (env : ScannerEnv) (s : Snapshot) (p : List String) :
    (insertIgnoreFile env s p).absPath = s.absPath := rfl

theorem insertIgnoreFile_entries (env : ScannerEnv) (s : Snapshot) (p : List String) :
    (insertIgnoreFile env s p).entries = s.entries := rfl

theorem registerIgnores_invariants (env : ScannerEnv) (children : List Entry) :
    ∀ s : Snapshot, (registerIgnores env s children).scanId = s.scanId ∧
      (registerIgnores env s children).absPath = s.absPath ∧
      (registerIgnores env s children).entries = s.entries := by
  induction children with
  | nil => intro s; exact ⟨rfl, rfl, rfl⟩
  | cons c rest ih =>
    intro s
    have hstep : registerIgnores env s (c :: rest) =
        registerIgnores env (if ignoreChild c then insertIgnoreFile env s c.path else s) rest := rfl
    rw [hstep]
    rcases ih (if ignoreChild c then insertIgnoreFile env s c.path else s) with ⟨h1, h2, h3⟩
    refine ⟨?_, ?_, ?_⟩ <;> (first | rw [h1] | rw [h2] | rw [h3]) <;> split <;> rfl

theorem registerIgnores_preserve (env : ScannerEnv) {children : List Entry}
    {k : List String} (h : ∀ d ∈ children, ignoreChild d = true → d.path.dropLast ≠ k) :
    ∀ s : Snapshot,
      ignoresFind (registerIgnores env s children).ignores k = ignoresFind s.ignores k := by
  induction children with
  | nil => intro s; rfl
  | cons c rest ih =>
    intro s
    have hstep : registerIgnores env s (c :: rest) =
        registerIgnores env (if ignoreChild c then insertIgnoreFile env s c.path else s) rest := rfl
    rw [hstep]
    rw [ih (fun d hd => h d (List.mem_cons_of_mem c hd))]
    cases hic : ignoreChild c with
    | false => rw [if_neg (by simp [hic])]
    | true =>
      rw [if_pos (by simp [hic])]
      exact ignoresFind_insert_other s.ignores c.path.dropLast _
        (fun hc => h c (List.mem_cons_self c rest) hic hc.symm)

theorem registerIgnores_find (env : ScannerEnv) {children : List Entry} {c : Entry}
    (hc : c ∈ children) (hic : ignoreChild c = true)
    (hdisj : children.Pairwise (fun a b => a.path ≠ b.path))
    (hkeys : ∀ d ∈ children, ignoreChild d = true → d.path ≠ c.path →
      d.path.dropLast ≠ c.path.dropLast) :
    ∀ s : Snapshot,
      ignoresFind (registerIgnores env s children).ignores c.path.dropLast =
        some (env.parseIgnore (s.absPath ++ c.path), s.scanId) := by
  induction children with
  | nil => exact absurd hc (by simp)
  | cons d rest ih =>
    intro s
    rcases List.pairwise_cons.mp hdisj with ⟨hd, hrest⟩
    have hstep : registerIgnores env s (d :: rest) =
        registerIgnores env (if ignoreChild d then insertIgnoreFile env s d.path else s) rest := rfl
    rw [hstep]
    rcases List.mem_cons.mp hc with rfl | hcr
    · rw [if_pos (by simp [hic])]
      rw [registerIgnores_preserve env (fun e he hie hkey =>
        hkeys e (List.mem_cons_of_mem c he) hie
          (fun hpe => (hd e he) hpe.symm) hkey)]
      exact ignoresFind_insert_self s.ignores c.path.dropLast _
    · have hres := ih hcr hrest
        (fun e he hie hne => hkeys e (List.mem_cons_of_mem d he) hie hne)
        (if ignoreChild d then insertIgnoreFile env s d.path else s)
      rw [hres]
      split <;> rfl

theorem fileName_decomp {q : List String} {x : String} (h : fileName q = some x) :
    q = q.dropLast ++ [x] := by
  induction q with
  | nil => simp [fileName] at h
  | cons a t ih =>
    cases t with
    | nil =>
      simp only [fileName, List.getLast?_singleton, Option.some_inj] at h
      rw [h]
      rfl
    | cons b t2 =>
      have hstep : fileName (a :: b :: t2) = fileName (b :: t2) := by
        simp [fileName]
      rw [hstep] at h
      have := ih h
      calc a :: b :: t2 = a :: ((b :: t2).dropLast ++ [x]) := by rw [← this]
        _ = (a :: b :: t2).dropLast ++ [x] := by rfl

theorem entryForPath_path {s : Snapshot} {p : List String} {e : Entry}
    (h : entryForPath s p = some e) : e.path = p := by
  unfold entryForPath at h
  split at h
  case h_1 r hf =>
    split at h
    case isTrue hr =>
      have : r = e := by injection h
      rw [← this]
      exact hr
    case isFalse hr => exact absurd h (by simp)
  case h_2 => exact absurd h (by simp)

theorem ancestorChain_nil : ancestorChain [] = [] := rfl

theorem ancestorChainAux_take (q : List String) :
    ∀ (m n : Nat), m ≤ n → ancestorChainAux (q.take n) m = ancestorChainAux q m := by
  intro m
  induction m with
  | zero => intro n _; rfl
  | succ m ih =>
    intro n hmn
    simp only [ancestorChainAux]
    rw [List.take_take, Nat.min_eq_left (by omega), ih n (by omega)]

theorem ancestorChain_cons (a : String) (as : List String) :
    ancestorChain (a :: as) =
      (a :: as).dropLast :: ancestorChain ((a :: as).dropLast) := by
  have hdl : (a :: as).dropLast = (a :: as).take as.length := by
    rw [List.dropLast_eq_take]
    simp
  simp only [ancestorChain, List.length_cons, ancestorChainAux, hdl]
  rw [List.length_take]
  rw [Nat.min_eq_left (by simp)]
  rw [ancestorChainAux_take (a :: as) as.length as.length (Nat.le_refl _)]

theorem parentPath_cons (a : String) (as : List String) :
    parentPath (a :: as) = some ((a :: as).dropLast) := rfl

/-- The loop of is_path_ignored agrees with the declarative ancestor
walk whose flag is the subject is_dir at the first consulted ancestor
and true afterwards, provided every proper ancestor has a directory
entry in the index. -/
theorem ignoreWalk_eq_walkSpec (s : Snapshot) (p : List String) :
    ∀ (fuel : Nat) (q : List String) (entry : Entry), entry.path = q →
      (∀ d ∈ ancestorChain q, ∃ e, entryForPath s d = some e ∧ e.isDir = true) →
      q.length + 1 ≤ fuel →
      ignoreWalk s p entry fuel = walkSpec s p (ancestorChain q) entry.isDir := by
  intro fuel
  induction fuel with
  | zero => intro q entry _ _ hle; exact absurd hle (by omega)
  | succ f ihf =>
    intro q entry hpath hanc hle
    cases q with
    | nil =>
      have hpp : parentPath entry.path = none := by rw [hpath]; rfl
      simp only [ignoreWalk, hpp, ancestorChain_nil, walkSpec]
    | cons a as =>
      have hpp : parentPath entry.path = some ((a :: as).dropLast) := by
        rw [hpath]; rfl
      have hchain := ancestorChain_cons a as
      rcases hanc ((a :: as).dropLast)
        (by rw [hchain]; exact List.mem_cons_self _ _) with ⟨pe, hpe, hdir⟩
      have hpep : pe.path = (a :: as).dropLast := entryForPath_path hpe
      have hrec : ignoreWalk s p pe f =
          walkSpec s p (ancestorChain ((a :: as).dropLast)) pe.isDir := by
        refine ihf ((a :: as).dropLast) pe hpep
          (fun d hd => hanc d (by rw [hchain]; exact List.mem_cons_of_mem _ hd)) ?_
        simp only [List.length_dropLast, List.length_cons] at *
        omega
      have hlhs : ignoreWalk s p entry (f + 1) =
          (match ignoresFind s.ignores pe.path with
            | some rp =>
              match rp.1 (p.drop pe.path.length) entry.isDir with
              | .whitelist => false
              | .ignoreMatch => true
              | .noMatch => ignoreWalk s p pe f
            | none => ignoreWalk s p pe f) := by
        simp only [ignoreWalk, hpp, hpe]
      have hrhs : walkSpec s p (ancestorChain (a :: as)) entry.isDir =
          (match ignoresFind s.ignores ((a :: as).dropLast) with
            | some rp =>
              match rp.1 (p.drop ((a :: as).dropLast).length) entry.isDir with
              | .whitelist => false
              | .ignoreMatch => true
              | .noMatch => walkSpec s p (ancestorChain ((a :: as).dropLast)) true
            | none => walkSpec s p (ancestorChain ((a :: as).dropLast)) true) := by
        rw [hchain]
        rfl
      rw [hlhs, hrhs, hpep]
      cases hig : ignoresFind s.ignores ((a :: as).dropLast) with
      | none =>
        simp only []
        rw [hrec, hdir]
      | some rp =>
        simp only []
        cases rp.1 (p.drop ((a :: as).dropLast).length) entry.isDir with
        | whitelist => rfl
        | ignoreMatch => rfl
        | noMatch => rw [hrec, hdir]

theorem removePath_scanId (s : Snapshot) (p : List String) :
    (removePath s p).scanId = s.scanId := rfl

theorem insertEntry_scanId (env : ScannerEnv) (s : Snapshot) (e : Entry) :
    (insertEntry env s e).scanId = s.scanId := by
  unfold insertEntry
  split <;> rfl

theorem processOneEvent_scanId (env : ScannerEnv) (root : List String)
    (acc : Snapshot) (absPath : List String) :
    (processOneEvent env root acc absPath).scanId = acc.scanId := by
  unfold processOneEvent
  split
  case isTrue h =>
    cases hf : fsEntryForPath env (absPath.drop root.length) absPath with
    | ok o =>
      cases o with
      | none => simp only [hf]; rfl
      | some e =>
        simp only [hf]
        rw [insertEntry_scanId]
        rfl
    | error err => simp only [hf]; rfl
  case isFalse h => rfl

theorem foldl_processOneEvent_scanId (env : ScannerEnv) (root : List String) :
    ∀ (evs : List (List String)) (acc : Snapshot),
      (evs.foldl (processOneEvent env root) acc).scanId = acc.scanId := by
  intro evs
  induction evs with
  | nil => intro acc; rfl
  | cons a rest ih =>
    intro acc
    simp only [List.foldl_cons]
    rw [ih (processOneEvent env root acc a), processOneEvent_scanId]

theorem processEvents_scanId {env : ScannerEnv} {s s2 : Snapshot}
    {events : List (List String)} (h : processEvents env s events = some s2) :
    s2.scanId = s.scanId + 1 := by
  unfold processEvents at h
  cases hc : env.canonical with
  | none => rw [hc] at h; exact absurd h (by simp)
  | some root =>
    rw [hc] at h
    have h2 : (coalesce (sortPaths events)).foldl (processOneEvent env root)
        { s with scanId := s.scanId + 1 } = s2 := by injection h
    rw [← h2, foldl_processOneEvent_scanId]

theorem populateDir_scanId {env : ScannerEnv} {s s2 : Snapshot}
    {parent : List String} {children : List Entry}
    (h : populateDir env s parent children = some s2) : s2.scanId = s.scanId := by
  unfold populateDir at h
  split at h
  case h_1 => exact absurd h (by simp)
  case h_2 pe hpe =>
    split at h
    case h_1 =>
      have h2 := h
      simp only [Option.some_inj] at h2
      rw [← h2]
      exact (registerIgnores_invariants env children s).1
    case h_2 => exact absurd h (by simp)

/-- From Snapshot file_count: the file count of the root summary. -/
def Snapshot.fileCount (s : Snapshot) : Nat :=
  (summaryOfList s.entries).fileCount

/-- From Snapshot visible_file_count: the visible file count of the
root summary. -/
def Snapshot.visibleFileCount (s : Snapshot) : Nat :=
  (summaryOfList s.entries).visibleFileCount

theorem summary_fileCount (e : Entry) :
    e.summary.fileCount = if isFileKind e.kind then 1 else 0 := by
  unfold Entry.summary
  split <;> rfl

theorem summary_visibleFileCount (e : Entry) :
    e.summary.visibleFileCount =
      if isFileKind e.kind && !(e.isIgnored == some true) then 1 else 0 := by
  unfold Entry.summary
  split
  case isTrue h =>
    cases hig : e.isIgnored with
    | none => simp [h, hig]
    | some b => cases b <;> simp [h, hig]
  case isFalse h => simp [h]

theorem summaryOfList_fold (es : List Entry) :
    ∀ acc : EntrySummary,
      (es.foldl (fun a e => combineSummary a e.summary) acc).fileCount =
        acc.fileCount + es.countP (fun e => isFileKind e.kind)
      ∧ (es.foldl (fun a e => combineSummary a e.summary) acc).visibleFileCount =
          acc.visibleFileCount +
            es.countP (fun e => isFileKind e.kind && !(e.isIgnored == some true)) := by
  induction es with
  | nil => intro acc; simp
  | cons e t ih =>
    intro acc
    simp only [List.foldl_cons, List.countP_cons]
    rcases ih (combineSummary acc e.summary) with ⟨h1, h2⟩
    constructor
    · rw [h1]
      show acc.fileCount + e.summary.fileCount + _ = _
      rw [summary_fileCount]
      split <;> omega
    · rw [h2]
      show acc.visibleFileCount + e.summary.visibleFileCount + _ = _
      rw [summary_visibleFileCount]
      split <;> omega

theorem entriesGet_path {es : List Entry} {q : List String} {e : Entry}
    (h : entriesGet es q = some e) : e.path = q := by
  have h2 := List.find?_some h
  simpa using h2

theorem ignoreChild_fileName {c : Entry} (h : ignoreChild c = true) :
    fileName c.path = some gitignoreName := by
  unfold ignoreChild at h
  rcases Bool.and_eq_true_iff.mp h with ⟨_, h2⟩
  simpa using h2

theorem pathCmp_nil_not_lt (q : List String) : pathCmp q [] ≠ .lt := by
  cases q <;> simp [pathCmp, lexCmp]

theorem takeWhileOpt_total {g : α → Bool} {f : α → Option Bool}
    (h : ∀ a, f a = some (g a)) :
    ∀ l : List α, takeWhileOpt f l = some (l.takeWhile g) := by
  intro l
  induction l with
  | nil => rfl
  | cons a t ih =>
    simp only [takeWhileOpt, h a, List.takeWhile_cons]
    cases hg : g a with
    | true => simp [ih]
    | false => simp

theorem dropWhileOpt_total {g : α → Bool} {f : α → Option Bool}
    (h : ∀ a, f a = some (g a)) :
    ∀ l : List α, dropWhileOpt f l = some (l.dropWhile g) := by
  intro l
  induction l with
  | nil => rfl
  | cons a t ih =>
    simp only [dropWhileOpt, h a, List.dropWhile_cons]
    cases hg : g a with
    | true => simp [ih]
    | false => simp

/-- Rules that never match, also the model of an empty ruleset. -/
def rulesNone : IgnoreRules := fun _ _ => .noMatch

/-- Rules that ignore the relative path a b only when consulted with a
true is_dir flag. -/
def rulesDirOnly : IgnoreRules := fun rel flag =>
  if rel = ["a", "b"] ∧ flag = true then .ignoreMatch else .noMatch

/-- An environment whose stats all fail with NotFound and whose ignore
files parse to the empty ruleset. -/
def env0 : ScannerEnv :=
  { meta := fun _ => .error { kind := .notFound, rawOs := none }
    symlinkMeta := fun _ => .error { kind := .notFound, rawOs := none }
    parseIgnore := fun _ => rulesNone
    canonical := some []
    rootCharBag := [] }

def entRootDir : Entry :=
  { kind := .dir, path := [], inode := 0, isSymlink := false, isIgnored := some false }

def entDirA : Entry :=
  { kind := .dir, path := ["a"], inode := 1, isSymlink := false, isIgnored := some false }

def entFileAB : Entry :=
  { kind := .file [], path := ["a", "b"], inode := 2, isSymlink := false, isIgnored := none }

/-- Snapshot with a root gitignore whose rules fire only on the is_dir
flag, exercising the flag handed to ancestors beyond the parent. -/
def s4ex : Snapshot :=
  { id := 0, scanId := 1, absPath := [], rootNameChars := []
    ignores := [([], rulesDirOnly, 0)]
    entries := [entRootDir, entDirA, entFileAB] }

def entSubDir : Entry :=
  { kind := .dir, path := ["sub"], inode := 3, isSymlink := false, isIgnored := some false }

def entSubGi : Entry :=
  { kind := .file [], path := ["sub", ".gitignore"], inode := 4, isSymlink := false
    isIgnored := some false }

/-- Snapshot holding a sub directory with a gitignore recorded at scan
id 2 while the snapshot is at scan id 5. -/
def s3ex : Snapshot :=
  { id := 0, scanId := 5, absPath := [], rootNameChars := []
    ignores := [(["sub"], rulesNone, 2)]
    entries := [entRootDir, entSubDir, entSubGi] }

def entPendD : Entry :=
  { kind := .pendingDir, path := ["d"], inode := 8, isSymlink := false, isIgnored := none }

def entChildX : Entry :=
  { kind := .file [], path := ["d", "x"], inode := 9, isSymlink := false, isIgnored := none }

def entChildGi : Entry :=
  { kind := .file [], path := ["d", ".gitignore"], inode := 10, isSymlink := false
    isIgnored := none }

/-- Snapshot with one pending directory about to be populated. -/
def s5ex : Snapshot :=
  { id := 0, scanId := 3, absPath := ["r"], rootNameChars := []
    ignores := []
    entries := [entPendD] }

/-- The empty initial snapshot, as built by Worktree new before any
scan. -/
def sMini : Snapshot :=
  { id := 0, scanId := 0, absPath := [], rootNameChars := []
    ignores := []
    entries := [] }

def sMiniBumped : Snapshot := { sMini with scanId := sMini.scanId + 1 }

def entLoneFile : Entry :=
  { kind := .file [], path := ["f"], inode := 7, isSymlink := false, isIgnored := none }

/-- Snapshot holding a single still-unclassified file. -/
def s1ex : Snapshot :=
  { id := 0, scanId := 0, absPath := [], rootNameChars := []
    ignores := []
    entries := [entLoneFile] }

/-- Claim C1, counterexample: a still-unclassified file (is_ignored
None) adds one to visible_file_count, so visible_file_count does not
equal the number of File entries whose is_ignored is Some(false). -/
theorem c1_counterexample :
    ¬ (Snapshot.visibleFileCount s1ex =
        s1ex.entries.countP (fun e => isFileKind e.kind && (e.isIgnored == some false))) := by
  decide

/-- Claim C1 (amended): file_count counts the File entries, while
visible_file_count counts the File entries whose is_ignored is not
Some(true), that is Some(false) or the pending None; per entry the
summary assigns file_count one exactly to File entries and
visible_file_count one exactly to File entries not known ignored. -/
theorem c1_summary_counts (s : Snapshot) :
    Snapshot.fileCount s = s.entries.countP (fun e => isFileKind e.kind)
    ∧ Snapshot.visibleFileCount s =
        s.entries.countP (fun e => isFileKind e.kind && !(e.isIgnored == some true))
    ∧ ∀ e : Entry,
        e.summary.fileCount = (if isFileKind e.kind then 1 else 0)
        ∧ e.summary.visibleFileCount =
            (if isFileKind e.kind && !(e.isIgnored == some true) then 1 else 0) := by
  refine ⟨?_, ?_, fun e => ⟨summary_fileCount e, summary_visibleFileCount e⟩⟩
  · show (summaryOfList s.entries).fileCount = _
    unfold summaryOfList
    rw [(summaryOfList_fold s.entries defaultSummary).1]
    simp [defaultSummary]
  · show (summaryOfList s.entries).visibleFileCount = _
    unfold summaryOfList
    rw [(summaryOfList_fold s.entries defaultSummary).2]
    simp [defaultSummary]

/-- Claim C2, counterexample: with a = b6 and b = a1, b does not start
with a yet Successor(a) compares greater than Exact(b), not less, so
the claimed iff fails. -/
theorem c2_counterexample :
    startsWith ["a"] ["b"] = false ∧
      psCmpOpt (.successor ["b"]) (.exact ["a"]) ≠ some Ordering.lt := by
  constructor
  · decide
  · intro h
    have : succCmpExact ["b"] ["a"] = Ordering.lt := by
      have h2 : psCmpOpt (.successor ["b"]) (.exact ["a"]) =
          some (succCmpExact ["b"] ["a"]) := rfl
      rw [h2] at h
      injection h
    revert this
    decide

/-- Claim C2 (amended): Exact against Exact compares the paths;
Successor(a) against Exact(b) is Greater when b starts with a and
otherwise compares a to b, so Successor(a) is below Exact(b) exactly
when b does not start with a and a is below b. -/
theorem c2_path_search_order (a b : List String) :
    (psCmpOpt (.exact a) (.exact b) = some .lt ↔ pathCmp a b = .lt)
    ∧ (startsWith b a = true → psCmpOpt (.successor a) (.exact b) = some .gt)
    ∧ (startsWith b a = false →
        psCmpOpt (.successor a) (.exact b) = some (pathCmp a b)) := by
  refine ⟨?_, ?_, ?_⟩
  · constructor
    · intro h
      have h2 : psCmpOpt (.exact a) (.exact b) = some (pathCmp a b) := rfl
      rw [h2] at h
      injection h
    · intro h
      show some (pathCmp a b) = some Ordering.lt
      rw [h]
  · intro h
    show some (succCmpExact a b) = some Ordering.gt
    rw [succCmpExact_of_sw h]
  · intro h
    show some (succCmpExact a b) = some (pathCmp a b)
    rw [succCmpExact_of_not_sw h]

/-- Witness for claim C2 at concrete inputs. -/
theorem c2_witness :
    psCmpOpt (.successor ["a"]) (.exact ["a", "b"]) = some Ordering.gt ∧
      psCmpOpt (.successor ["b"]) (.exact ["a"]) = some (pathCmp ["b"] ["a"]) :=
  ⟨(c2_path_search_order ["a"] ["a", "b"]).2.1 (by decide),
   (c2_path_search_order ["b"] ["a"]).2.2 (by decide)⟩

/-- Claim C6, counterexample: combining a summary with the default on
the right overwrites its max_path with the empty path, so the default
is not a right identity. -/
theorem c6_counterexample :
    combineSummary
      { maxPath := ["a"], fileCount := 0, visibleFileCount := 0
        recomputeIgnoreStatus := false } defaultSummary ≠
      { maxPath := ["a"], fileCount := 0, visibleFileCount := 0
        recomputeIgnoreStatus := false } := by
  decide

/-- Claim C6 (amended): the combine of EntrySummary is associative and
takes max_path from the right operand, adds the counts and ors the
flag; the default summary is a left identity but not a right identity,
since combine overwrites max_path with the right operand. -/
theorem c6_summary_monoid :
    (∀ a b c : EntrySummary,
      combineSummary (combineSummary a b) c = combineSummary a (combineSummary b c))
    ∧ (∀ a : EntrySummary, combineSummary defaultSummary a = a)
    ∧ (∃ a : EntrySummary, combineSummary a defaultSummary ≠ a)
    ∧ (∀ a b : EntrySummary,
        (combineSummary a b).maxPath = b.maxPath
        ∧ (combineSummary a b).fileCount = a.fileCount + b.fileCount
        ∧ (combineSummary a b).visibleFileCount = a.visibleFileCount + b.visibleFileCount
        ∧ (combineSummary a b).recomputeIgnoreStatus =
            (a.recomputeIgnoreStatus || b.recomputeIgnoreStatus)) := by
  refine ⟨?_, ?_, ?_, ?_⟩
  · intro a b c
    simp [combineSummary, Nat.add_assoc, Bool.or_assoc]
  · intro a
    cases a
    simp [combineSummary, defaultSummary]
  · exact ⟨{ maxPath := ["a"], fileCount := 0, visibleFileCount := 0
             recomputeIgnoreStatus := false }, by decide⟩
  · intro a b
    exact ⟨rfl, rfl, rfl, rfl⟩

/-- Claim C8: every cursor comparison issued by remove_path (the slice
below Exact(p) and the seek past Successor(p)) and by the changed
ignore parent traversal (the Right biased seek to Exact) pairs the
search target on the left with an Exact position on the right, so the
unimplemented Ord branch of PathSearch is never reached: the checked
computations always return a value. -/
theorem c8_todo_branch_unreachable :
    (∀ (es : List Entry) (p : List String),
      removeEntriesChecked es p = some (removeEntries es p))
    ∧ (∀ (t : List String) (es : List Entry), (seekRightChecked t es).isSome = true) := by
  constructor
  · intro es p
    have h1 : takeWhileOpt (cmpStepOpt (.exact p)) es =
        some (es.takeWhile (fun e => pathCmp p e.path == .gt)) :=
      takeWhileOpt_total (fun e => rfl) es
    have h2 : dropWhileOpt (cmpStepOpt (.successor p)) es =
        some (es.dropWhile (fun e => succCmpExact p e.path == .gt)) :=
      dropWhileOpt_total (fun e => rfl) es
    simp only [removeEntriesChecked, h1, h2]
    rfl
  · intro t es
    have h : dropWhileOpt
        (fun e => (psCmpOpt (.exact t) (.exact e.path)).map (fun o => !(o == .lt))) es =
        some (es.dropWhile (fun e => !(pathCmp t e.path == .lt))) :=
      dropWhileOpt_total (fun e => rfl) es
    simp only [seekRightChecked, h]
    rfl

/-- Claim C9: fs_entry_for_path yields Ok(None) exactly for a NotFound
stat or an Other stat carrying ENOTDIR; any other failure of either
stat is surfaced as an error; a successful stat produces the entry
with PendingDir kind for directories and File kind otherwise; and in
event processing an Ok(None) path is left removed. -/
theorem c9_fs_entry_for_path (env : ScannerEnv) (path absPath : List String) :
    (fsEntryForPath env path absPath = .ok none ↔
      (∃ err, env.meta absPath = .error err ∧
        (err.kind = .notFound ∨ (err.kind = .otherKind ∧ err.rawOs = some enotdir))))
    ∧ (∀ m sm, env.meta absPath = .ok m → env.symlinkMeta absPath = .ok sm →
        fsEntryForPath env path absPath = .ok (some
          { kind := if m.isDir then .pendingDir
                    else .file (env.rootCharBag ++ pathChars path)
            path := path, inode := m.inode, isSymlink := sm.isSymlink
            isIgnored := none }))
    ∧ (∀ err, env.meta absPath = .error err → err.kind ≠ .notFound →
        ¬(err.kind = .otherKind ∧ err.rawOs = some enotdir) →
        fsEntryForPath env path absPath = .error err)
    ∧ (∀ m err, env.meta absPath = .ok m → env.symlinkMeta absPath = .error err →
        fsEntryForPath env path absPath = .error err)
    ∧ (∀ (root : List String) (acc : Snapshot) (abs2 : List String),
        startsWith abs2 root = true →
        fsEntryForPath env (abs2.drop root.length) abs2 = .ok none →
        processOneEvent env root acc abs2 = removePath acc (abs2.drop root.length)) := by
  refine ⟨?_, ?_, ?_, ?_, ?_⟩
  · constructor
    · intro h
      unfold fsEntryForPath at h
      cases hm : env.meta absPath with
      | error err =>
        simp only [hm] at h
        refine ⟨err, rfl, ?_⟩
        by_cases h1 : err.kind = .notFound
        · exact Or.inl h1
        · rw [if_neg h1] at h
          by_cases h2 : err.kind = .otherKind ∧ err.rawOs = some enotdir
          · exact Or.inr h2
          · rw [if_neg h2] at h
            exact absurd h (by simp)
      | ok m =>
        simp only [hm] at h
        cases hs : env.symlinkMeta absPath with
        | error err =>
          simp only [hs] at h
          exact absurd h (by simp)
        | ok sm =>
          simp only [hs] at h
          exact absurd h (by simp)
    · rintro ⟨err, hm, hcase⟩
      unfold fsEntryForPath
      simp only [hm]
      rcases hcase with h1 | h2
      · rw [if_pos h1]
      · rw [if_neg (by rw [h2.1]; simp), if_pos h2]
  · intro m sm hm hs
    unfold fsEntryForPath
    simp only [hm, hs]
  · intro err hm h1 h2
    unfold fsEntryForPath
    simp only [hm]
    rw [if_neg h1, if_neg h2]
  · intro m err hm hs
    unfold fsEntryForPath
    simp only [hm, hs]
  · intro root acc abs2 hsw hfs
    unfold processOneEvent
    rw [if_pos hsw]
    simp only [hfs]

/-- Witness for claim C9: a NotFound stat yields Ok(None). -/
theorem c9_witness : fsEntryForPath env0 [] ["x"] = .ok none :=
  (c9_fs_entry_for_path env0 [] ["x"]).1.mpr
    ⟨{ kind := .notFound, rawOs := none }, rfl, Or.inl rfl⟩

/-- Claim C10: on the empty index, entry_for_path of the empty path is
none, so root_entry has nothing to unwrap and the source panics; on an
index containing an entry with the empty path, root_entry returns it. -/
theorem c10_root_entry :
    (∀ s : Snapshot, s.entries = [] → rootEntry s = none)
    ∧ (∀ (s : Snapshot) (e : Entry), sortedEntries s.entries → e ∈ s.entries →
        e.path = [] → rootEntry s = some e) := by
  constructor
  · intro s h
    unfold rootEntry entryForPath
    rw [h]
    rfl
  · intro s e hs hmem hpath
    unfold rootEntry entryForPath
    cases hes : s.entries with
    | nil => rw [hes] at hmem; exact absurd hmem (by simp)
    | cons h0 t =>
      rw [hes] at hmem hs
      have he : e = h0 := by
        rcases List.mem_cons.mp hmem with rfl | hmt
        · rfl
        · rcases List.pairwise_cons.mp hs with ⟨hrel, _⟩
          have hlt := hrel e hmt
          rw [hpath] at hlt
          exact absurd hlt (pathCmp_nil_not_lt h0.path)
      have hpred : (fun x : Entry => !(pathCmp x.path [] == .lt)) h0 = true := by
        simp only [Bool.not_eq_true']
        cases hc : pathCmp h0.path [] with
        | lt => exact absurd hc (pathCmp_nil_not_lt h0.path)
        | eq => rfl
        | gt => rfl
      rw [List.find?_cons_of_pos t hpred]
      rw [← he]
      show (if e.path = [] then some e else none) = some e
      rw [if_pos hpath]

/-- Witness for claim C10: the root entry of a populated snapshot. -/
theorem c10_witness : rootEntry s4ex = some entRootDir :=
  c10_root_entry.2 s4ex entRootDir (by decide) (by decide) rfl

/-- Claim C3: remove_path keeps exactly the entries whose path does not
start with p, each unchanged and in order, so no entry at p or below p
survives; and when p names a .gitignore whose parent directory is a
key of the ignore map, that key keeps its rules but its stored scan id
becomes the current scan id. -/
theorem c3_remove_path (s : Snapshot) (p : List String)
    (hs : sortedEntries s.entries) :
    (removePath s p).entries = s.entries.filter (fun e => !(startsWith e.path p))
    ∧ (∀ e ∈ (removePath s p).entries, startsWith e.path p = false)
    ∧ (removePath s p).scanId = s.scanId
    ∧ (fileName p = some gitignoreName →
        ∀ (r : IgnoreRules) (sid : Nat),
          ignoresFind s.ignores p.dropLast = some (r, sid) →
          ignoresFind (removePath s p).ignores p.dropLast = some (r, s.scanId)) := by
  have hfil : (removePath s p).entries =
      s.entries.filter (fun e => !(startsWith e.path p)) :=
    removeEntries_eq_filter p hs
  refine ⟨hfil, ?_, rfl, ?_⟩
  · intro e he
    rw [hfil] at he
    have := List.of_mem_filter he
    simpa using this
  · intro hgn r sid hfind
    show ignoresFind
      (if fileName p == some gitignoreName then
        ignoresBump s.ignores p.dropLast s.scanId
      else s.ignores) p.dropLast = some (r, s.scanId)
    rw [if_pos (by rw [hgn]; exact beq_self_eq_true _)]
    exact ignoresFind_bump_self s.ignores p.dropLast s.scanId hfind

/-- Witness for claim C3: removing the gitignore of the sub directory
deletes its entry and bumps the recorded scan id to the current one. -/
theorem c3_witness :
    (removePath s3ex ["sub", ".gitignore"]).entries =
      s3ex.entries.filter (fun e => !(startsWith e.path ["sub", ".gitignore"]))
    ∧ ignoresFind (removePath s3ex ["sub", ".gitignore"]).ignores ["sub"] =
        some (rulesNone, 5) :=
  ⟨(c3_remove_path s3ex ["sub", ".gitignore"] (by decide)).1,
   (c3_remove_path s3ex ["sub", ".gitignore"] (by decide)).2.2.2 rfl rulesNone 2 rfl⟩

/-- Claim C4, counterexample: the loop hands the grandparent rules the
is_dir flag of the intermediate directory, not of the subject file, so
the source reports the file ignored while the claimed walk with the
subject flag reports it not ignored. -/
theorem c4_counterexample :
    isPathIgnored s4ex ["a", "b"] = .ok true
    ∧ claimIsPathIgnored s4ex ["a", "b"] = .ok false := by
  constructor
  · rfl
  · rfl

/-- Claim C4 (amended): is_path_ignored errors exactly when the path
has no entry; a path whose first component is .git is ignored;
otherwise the ancestors are walked nearest first, consulting each
ancestor present in the ignore map with the path relative to it, and
the is_dir flag passed is the subject flag for the first consulted
ancestor and true for every later one (that of the entry one level
below, a directory); first Whitelist means not ignored, first Ignore
means ignored, otherwise not ignored.  Stated under the invariant that
every proper ancestor has a directory entry in the index. -/
theorem c4_is_path_ignored (s : Snapshot) (p : List String)
    (hanc : ∀ d ∈ ancestorChain p, ∃ e, entryForPath s d = some e ∧ e.isDir = true) :
    ((∃ msg, isPathIgnored s p = .error msg) ↔ entryForPath s p = none)
    ∧ (∀ e, entryForPath s p = some e →
        isPathIgnored s p = .ok
          (if startsWith p [".git"] then true
           else walkSpec s p (ancestorChain p) e.isDir)) := by
  constructor
  · constructor
    · rintro ⟨msg, hmsg⟩
      unfold isPathIgnored at hmsg
      cases he : entryForPath s p with
      | none => rfl
      | some e =>
        simp only [he] at hmsg
        by_cases hsw : startsWith p [".git"] = true
        · rw [if_pos hsw] at hmsg
          exact absurd hmsg (by simp)
        · rw [if_neg hsw] at hmsg
          exact absurd hmsg (by simp)
    · intro he
      refine ⟨"entry does not exist in worktree", ?_⟩
      unfold isPathIgnored
      simp only [he]
  · intro e he
    unfold isPathIgnored
    simp only [he]
    by_cases hsw : startsWith p [".git"] = true
    · rw [if_pos hsw, if_pos hsw]
    · rw [if_neg hsw, if_neg hsw]
      have hw := ignoreWalk_eq_walkSpec s p (p.length + 1) p e
        (entryForPath_path he) hanc (Nat.le_refl _)
      rw [hw]

/-- Witness for claim C4: the subject file of the counterexample
snapshot evaluated through the amended description. -/
theorem c4_witness :
    isPathIgnored s4ex ["a", "b"] = .ok
      (if startsWith ["a", "b"] [".git"] then true
       else walkSpec s4ex ["a", "b"] (ancestorChain ["a", "b"]) entFileAB.isDir) :=
  (c4_is_path_ignored s4ex ["a", "b"] (by
    intro d hd
    have hchain : ancestorChain ["a", "b"] = [["a"], []] := rfl
    rw [hchain] at hd
    rcases List.mem_cons.mp hd with rfl | hd2
    · exact ⟨entDirA, rfl, rfl⟩
    · rcases List.mem_cons.mp hd2 with rfl | hd3
      · exact ⟨entRootDir, rfl, rfl⟩
      · exact absurd hd3 (by simp))).2 entFileAB rfl

/-- Claim C5: when the parent entry exists with PendingDir kind,
populate_dir succeeds, the parent entry becomes Dir, every child entry
is in the index, and every non-directory child named .gitignore is
registered in the ignore map under its parent directory with the
current scan id; when the parent is absent or in any other state the
unreachable branch is taken, modelled as none. -/
theorem c5_populate_dir (env : ScannerEnv) (s : Snapshot) (parent : List String)
    (children : List Entry)
    (hdisj : children.Pairwise (fun a b => a.path ≠ b.path))
    (hnp : ∀ c ∈ children, c.path ≠ parent) :
    (∀ pe, entriesGet s.entries parent = some pe → pe.kind = .pendingDir →
      ∃ s2, populateDir env s parent children = some s2
        ∧ entriesGet s2.entries parent = some { pe with kind := .dir }
        ∧ (∀ c ∈ children, c ∈ s2.entries)
        ∧ (∀ c ∈ children, ignoreChild c = true →
            ignoresFind s2.ignores c.path.dropLast =
              some (env.parseIgnore (s.absPath ++ c.path), s.scanId)))
    ∧ ((∀ pe, entriesGet s.entries parent = some pe → pe.kind ≠ .pendingDir) →
        populateDir env s parent children = none) := by
  constructor
  · intro pe hpe hkind
    refine ⟨{ registerIgnores env s children with
        entries := editEntries (registerIgnores env s children).entries
          ({ pe with kind := .dir } :: children) }, ?_, ?_, ?_, ?_⟩
    · unfold populateDir
      simp only [hpe, hkind]
    · show entriesGet (editEntries (registerIgnores env s children).entries
        ({ pe with kind := .dir } :: children)) parent = _
      rw [(registerIgnores_invariants env children s).2.2]
      have hstep : editEntries s.entries ({ pe with kind := .dir } :: children) =
          editEntries (insertSorted s.entries { pe with kind := .dir }) children := rfl
      rw [hstep]
      rw [editEntries_get_of_absent (fun d hd => hnp d hd)]
      have hpp : ({ pe with kind := EntryKind.dir } : Entry).path = parent := by
        show pe.path = parent
        exact entriesGet_path hpe
      rw [← hpp]
      exact entriesGet_insertSorted_self s.entries _
    · intro c hc
      show c ∈ editEntries (registerIgnores env s children).entries
        ({ pe with kind := .dir } :: children)
      have hdist2 : ({ pe with kind := EntryKind.dir } :: children).Pairwise
          (fun a b => a.path ≠ b.path) := by
        refine List.pairwise_cons.mpr ⟨?_, hdisj⟩
        intro b hb
        show pe.path ≠ b.path
        rw [entriesGet_path hpe]
        exact fun hcc => hnp b hb hcc.symm
      exact editEntries_mem_self (List.mem_cons_of_mem _ hc) hdist2 _
    · intro c hc hic
      show ignoresFind (registerIgnores env s children).ignores c.path.dropLast = _
      refine registerIgnores_find env hc hic hdisj ?_ s
      intro d hd hid hne heq
      have hd2 := fileName_decomp (ignoreChild_fileName hid)
      have hc2 := fileName_decomp (ignoreChild_fileName hic)
      apply hne
      rw [hd2, hc2, heq]
  · intro hnk
    unfold populateDir
    cases hpe : entriesGet s.entries parent with
    | none => rfl
    | some pe =>
      have hne := hnk pe hpe
      cases hk : pe.kind with
      | pendingDir => exact absurd hk hne
      | dir => simp only [hk]
      | file cb => simp only [hk]

/-- Witness for claim C5: populating the pending directory with one
file child and one gitignore child. -/
theorem c5_witness :
    ∃ s2, populateDir env0 s5ex ["d"] [entChildGi, entChildX] = some s2
      ∧ entriesGet s2.entries ["d"] = some { entPendD with kind := .dir }
      ∧ (∀ c ∈ [entChildGi, entChildX], c ∈ s2.entries)
      ∧ (∀ c ∈ [entChildGi, entChildX], ignoreChild c = true →
          ignoresFind s2.ignores c.path.dropLast =
            some (env0.parseIgnore (s5ex.absPath ++ c.path), s5ex.scanId)) :=
  (c5_populate_dir env0 s5ex ["d"] [entChildGi, entChildX]
    (by decide) (by decide)).1 entPendD rfl rfl

theorem scanDirsBody_scanId (env : ScannerEnv) (s1 : Snapshot) :
    (scanDirsBody env s1).1.scanId = s1.scanId := by
  unfold scanDirsBody
  cases hm : env.meta s1.absPath with
  | error e => rfl
  | ok m =>
    cases hs : env.symlinkMeta s1.absPath with
    | error e => rfl
    | ok sm =>
      dsimp only
      by_cases hd : m.isDir = true
      · rw [if_pos hd]
        exact insertEntry_scanId env s1 _
      · rw [if_neg hd]
        exact insertEntry_scanId env s1 _

/-- Claim C7: no scanner mutation of the background snapshot decreases
the scan id; scan_dirs bumps it by one at its start, before any stat
can fail; and a committed process_events result carries exactly the
previous scan id plus one. -/
theorem c7_scan_id_monotone :
    (∀ (env : ScannerEnv) (s t : Snapshot), ScannerStep env s t → s.scanId ≤ t.scanId)
    ∧ (∀ (env : ScannerEnv) (s : Snapshot), (scanDirs env s).1.scanId = s.scanId + 1)
    ∧ (∀ (env : ScannerEnv) (s s2 : Snapshot) (events : List (List String)),
        processEvents env s events = some s2 → s2.scanId = s.scanId + 1) := by
  refine ⟨?_, ?_, ?_⟩
  · intro env s t hst
    cases hst with
    | bump => exact Nat.le_succ s.scanId
    | insert e => rw [insertEntry_scanId]
    | populate parent children s2 h =>
      rw [populateDir_scanId h]
    | remove p => rw [removePath_scanId]
    | applyEdits edits => exact Nat.le_refl _
    | gcIgnore k => exact Nat.le_refl _
    | commit events s2 h =>
      rw [processEvents_scanId h]
      exact Nat.le_succ _
  · intro env s
    show (scanDirsBody env { s with scanId := s.scanId + 1 }).1.scanId = s.scanId + 1
    rw [scanDirsBody_scanId]
  · intro env s s2 events h
    exact processEvents_scanId h

/-- Witness for claim C7: a removal step, the scan_dirs bump and an
empty committed batch on the initial snapshot. -/
theorem c7_witness :
    sMini.scanId ≤ (removePath sMini ["x"]).scanId
    ∧ (scanDirs env0 sMini).1.scanId = sMini.scanId + 1
    ∧ sMiniBumped.scanId = sMini.scanId + 1 :=
  ⟨c7_scan_id_monotone.1 env0 sMini (removePath sMini ["x"])
      (ScannerStep.remove sMini ["x"]),
   c7_scan_id_monotone.2.1 env0 sMini,
   c7_scan_id_monotone.2.2 env0 sMini sMiniBumped [] rfl⟩
